import Mathlib

/-!
Verification of the vulnerability-aggregation system (mini VM repository).

This file shallowly embeds the parts of the repository needed to settle the
frozen claims: the identifier arithmetic of `src/ids.py`, the correlation
logic of `src/reporting.py`, the aggregation pipeline of `src/processing.py`,
the agent-inventory persistence of `src/db.py`, the ingestion endpoint of
`agent_api.py`, and one poll iteration of `src/autonomous.py`.

Modelling conventions:
* Python strings are `String` / `List Char`; "digits" are ASCII `0`-`9`
  (Python's `\d` and `int()` additionally accept other Unicode decimal
  digits, which never occur in the identifiers this system manipulates).
* Python exceptions are `Option`/`Except` failures.
* External effects (base64, RSA-OAEP, AES-GCM, JSON parsing, the upstream
  probe, SQLite success/failure) are oracle parameters; the surrounding
  control flow is embedded from the source.
-/

namespace MiniVM

/-! ## Definitions embedded from the source -/

/-- An ASCII decimal digit, the character class matched by `\d` (restricted
to ASCII, see the module conventions). -/
def isDig (c : Char) : Bool :=
  48 ≤ c.toNat && c.toNat ≤ 57

/-- Whitespace characters stripped by Python's `str.strip()` and `int()`. -/
def isPySpace (c : Char) : Bool :=
  c = ' ' || c = '\t' || c = '\n' || c = '\x0d' || c = '\x0b' || c = '\x0c'

/-- Python `str.strip()` on a character list. -/
def pyStripChars (cs : List Char) : List Char :=
  ((cs.dropWhile isPySpace).reverse.dropWhile isPySpace).reverse

/-- Python `str.strip()` on a `String`. -/
def pyStrip (s : String) : String :=
  String.mk (pyStripChars s.data)

/-- Numeric value of an ASCII digit character. -/
def digitVal (c : Char) : Nat := c.toNat - 48

/-- Base-10 value of a digit string, accumulating from the left. -/
def parseVal (cs : List Char) : Nat :=
  cs.foldl (fun a c => 10 * a + digitVal c) 0

/-- Python `int()` applied to a string of (optionally whitespace-padded)
decimal digits.  Sign prefixes and `_` separators of Python's `int()` are not
modelled; they cannot occur in the identifier fragments this is applied to. -/
def pyInt (cs : List Char) : Option Nat :=
  let t := pyStripChars cs
  if t ≠ [] ∧ t.all isDig then some (parseVal t) else none

/-- Decimal digit characters of `n`, most significant first, with explicit
fuel (the fuel `n` always suffices); empty for `n = 0`. -/
def natDigitsAux : Nat → Nat → List Char
  | 0, _ => []
  | fuel + 1, n => if n = 0 then [] else natDigitsAux fuel (n / 10) ++ [Nat.digitChar (n % 10)]

/-- Decimal rendering of a natural number, as produced by Python's `str`/
`format` of a nonnegative `int`. -/
def numChars (n : Nat) : List Char :=
  if n = 0 then ['0'] else natDigitsAux n n

/-- Left-pad a digit string with `0` up to `width`, as Python `f-string`
formatting `{n:0{width}d}` does (no truncation when already longer). -/
def padLeft (width : Nat) (ds : List Char) : List Char :=
  List.replicate (width - ds.length) '0' ++ ds

/-- Python `str.split('-')`, used by `_split_id`. -/
def splitOnDash : List Char → List (List Char)
  | [] => [[]]
  | c :: rest =>
    let segs := splitOnDash rest
    if c = '-' then [] :: segs
    else
      match segs with
      | s :: t => (c :: s) :: t
      | [] => [[c]]

/-- Matches the tail of `^\d{4}-\d+$` after the dash: one or more digits,
then either the end of the string or a single final newline (Python's `$`
also matches just before a trailing `\n`). -/
def restRe : List Char → Bool
  | [] => true
  | [c] => isDig c || c = '\n'
  | c :: rest => isDig c && restRe rest

/-- One or more digits, then the end of the string or one final newline. -/
def tailRe : List Char → Bool
  | [] => false
  | [c] => isDig c
  | c :: rest => isDig c && restRe rest

/-- Character-level model of `re.match(r'^\d{4}-\d+$', s)` being truthy. -/
def idRe : List Char → Bool
  | a :: b :: c :: d :: e :: rest =>
    isDig a && isDig b && isDig c && isDig d && e = '-' && tailRe rest
  | _ => false

/-- Embeds `ids.validate_vuln_id`: `bool(_ID_RE.match(vuln_id))` with
`_ID_RE = re.compile(r'^\d{4}-\d+$')`. -/
def validate_vuln_id (s : String) : Bool :=
  idRe s.data

/-- Embeds `ids._split_id`: `year_str, num_str = vuln_id.split('-')` followed by
`int(year_str), int(num_str), len(num_str)`; `none` models the `ValueError`
raised on a wrong number of segments or a non-numeric segment. -/
def split_id (cs : List Char) : Option (Nat × Nat × Nat) :=
  match splitOnDash cs with
  | [ys, ns] =>
    match pyInt ys, pyInt ns with
    | some y, some n => some (y, n, ns.length)
    | _, _ => none
  | _ => none

/-- Rendering `f'{year}-{num:0{width}d}'` from `ids.py`. -/
def fmtId (year num width : Nat) : List Char :=
  numChars year ++ '-' :: padLeft width (numChars num)

/-- Embeds `ids.subtract_steps`: `num = max(0, num - max(0, steps))`, re-rendered
with the original width; `none` models the `ValueError` of `_split_id`. -/
def subtract_steps (cs : List Char) (steps : Int) : Option (List Char) :=
  (split_id cs).map fun p =>
    fmtId p.1 (max 0 ((p.2.1 : Int) - max 0 steps)).toNat p.2.2

/-- Failure modes of `iter_ids`: malformed identifier vs. invalid range
(both are `ValueError` in the source; the two raise sites are kept apart). -/
inductive IdError where
  | format
  | range
  deriving DecidableEq, Repr

/-- Embeds `ids.iter_ids`: splits both bounds, raises when the years differ or
`n2 < n1`, and otherwise renders `range(n1, n2 + 1)` at width `max w1 w2`. -/
def iter_ids (s e : List Char) : Except IdError (List (List Char)) :=
  match split_id s, split_id e with
  | some (y1, n1, w1), some (y2, n2, w2) =>
    if y1 ≠ y2 ∨ n2 < n1 then .error .range
    else .ok ((List.range (n2 + 1 - n1)).map fun i => fmtId y1 (n1 + i) (max w1 w2))
  | _, _ => .error .format

/-- The shape asserted by the claim for `validate` (spec side, for
comparison): one or more digits, a dash, one or more digits. -/
def claimLooseShape (cs : List Char) : Prop :=
  ∃ y n : List Char, cs = y ++ '-' :: n ∧ y ≠ [] ∧ (∀ c ∈ y, isDig c = true) ∧
    n ≠ [] ∧ (∀ c ∈ n, isDig c = true)

/-- Identifiers in canonical textual form: accepted by the identifier
pattern, first year digit nonzero, and no newline anywhere (so no accepted
trailing newline).  On this subset parsing and re-rendering round-trip. -/
def strict_form (cs : List Char) : Bool :=
  idRe cs && !((cs.headD '0') == '0') && !(cs.contains '\n')

/-- Python `str.lower()` restricted to ASCII letters and the Cyrillic
range `А`-`Я` kept by the tokenizer (other Unicode case mappings are not
modelled; no claim exercises them). -/
def toLowerPy (c : Char) : Char :=
  if 65 ≤ c.toNat ∧ c.toNat ≤ 90 then Char.ofNat (c.toNat + 32)
  else if 0x410 ≤ c.toNat ∧ c.toNat ≤ 0x42F then Char.ofNat (c.toNat + 32)
  else c

/-- The character class `[0-9A-Za-zА-Яа-я]` of `normalize_text`. -/
def isWordChar (c : Char) : Bool :=
  (48 ≤ c.toNat && c.toNat ≤ 57) || (65 ≤ c.toNat && c.toNat ≤ 90) ||
    (97 ≤ c.toNat && c.toNat ≤ 122) || (0x410 ≤ c.toNat && c.toNat ≤ 0x44F)

/-- Maximal runs of characters satisfying `p`, in order — the nonempty
pieces of `re.split` on the complement class (fuel-driven; the list length
always suffices as fuel). -/
def runsAux (p : Char → Bool) : Nat → List Char → List (List Char)
  | 0, _ => []
  | _ + 1, [] => []
  | fuel + 1, c :: rest =>
    if p c then (c :: rest.takeWhile p) :: runsAux p fuel (rest.dropWhile p)
    else runsAux p fuel rest

/-- Embeds `reporting.normalize_text`: lowercase, split on non-word boundaries,
drop empty tokens. -/
def normalize_text (s : String) : List String :=
  (runsAux isWordChar s.data.length (s.data.map toLowerPy)).map String.mk

/-- Embeds `reporting.tokens_similarity`: `|A ∩ B| / max(|A|, |B|)` over the two
token sets, `0.0` when either set is empty.  Python's `float` division is
modelled exactly in `ℚ`; for the cardinalities involved the `< 0.5`
threshold comparison agrees. -/
def tokens_similarity (a b : List String) : ℚ :=
  let sa := a.toFinset
  let sb := b.toFinset
  if sa = ∅ ∨ sb = ∅ then 0
  else ((sa ∩ sb).card : ℚ) / (max sa.card sb.card : ℚ)

/-- Embeds `reporting.parse_version`: `re.findall(r'\d+', s)` as integer tuple;
`None` when the string is falsy or has no digit run. -/
def parse_version (s : String) : Option (List Nat) :=
  if s = "" then none
  else
    let parts := runsAux isDig s.data.length s.data
    if parts = [] then none else some (parts.map parseVal)

/-- Python tuple `<` on integer tuples (lexicographic, shorter prefix is
smaller). -/
def pyTupleLt : List Nat → List Nat → Bool
  | [], [] => false
  | [], _ :: _ => true
  | _ :: _, [] => false
  | a :: as, b :: bs => if a < b then true else if b < a then false else pyTupleLt as bs

/-- Embeds `reporting.compare_versions`: right-pad with zeros to equal length,
compare lexicographically, return `-1`, `0` or `1`. -/
def compare_versions (a b : List Nat) : Int :=
  let m := max a.length b.length
  let aa := a ++ List.replicate (m - a.length) 0
  let bb := b ++ List.replicate (m - b.length) 0
  if pyTupleLt aa bb then -1 else if pyTupleLt bb aa then 1 else 0

/-- Embeds `reporting.VersionConstraint`. -/
structure VersionConstraint where
  op : String
  v1 : List Nat
  v2 : Option (List Nat) := none
  deriving DecidableEq, Repr

/-- Embeds `reporting.version_satisfies`. -/
def version_satisfies (installed : List Nat) (cons : VersionConstraint) : Bool :=
  let c := compare_versions installed cons.v1
  if cons.op = "<" then c = -1
  else if cons.op = "<=" then c = -1 || c = 0
  else if cons.op = "==" then c = 0
  else if cons.op = ">" then c = 1
  else if cons.op = ">=" then c = 0 || c = 1
  else if cons.op = "range" then
    match cons.v2 with
    | some w => decide (0 ≤ compare_versions installed cons.v1) &&
        decide (compare_versions installed w ≤ 0)
    | none => false
  else false

/-- Match a literal at the head of the input, returning the remainder. -/
def matchLit : List Char → List Char → Option (List Char)
  | [], l => some l
  | _ :: _, [] => none
  | p :: ps, c :: cs => if p = c then matchLit ps cs else none

/-- Embeds `\s+`: at least one whitespace character, consumed greedily. -/
def spaces1 : List Char → Option (List Char)
  | [] => none
  | c :: rest => if isPySpace c then some (rest.dropWhile isPySpace) else none

/-- The version-token pattern `[0-9][0-9A-Za-z\.\-\_]*`, matched greedily
at the current position. -/
def isVerChar (c : Char) : Bool :=
  (48 ≤ c.toNat && c.toNat ≤ 57) || (65 ≤ c.toNat && c.toNat ≤ 90) ||
    (97 ≤ c.toNat && c.toNat ≤ 122) || c = '.' || c = '-' || c = '_'

/-- Greedy match of the version-token pattern, returning token and rest. -/
def verTok : List Char → Option (List Char × List Char)
  | [] => none
  | c :: rest =>
    if isDig c then some (c :: rest.takeWhile isVerChar, rest.dropWhile isVerChar)
    else none

/-- One attempt of `(lit1|lit2|…)\s+([0-9][ver]*)` at the current position,
trying the alternatives in the pattern's order. -/
def tryPrefixVer : List (List Char) → List Char → Option (List Char × List Char)
  | [], _ => none
  | lit :: more, l =>
    match matchLit lit l with
    | some rest =>
      match spaces1 rest with
      | some rest2 =>
        match verTok rest2 with
        | some r => some r
        | none => tryPrefixVer more l
      | none => tryPrefixVer more l
    | none => tryPrefixVer more l

/-- Embeds `re.finditer` over `(lit…)\s+([0-9][ver]*)`: scan left to right,
non-overlapping, resuming after each full match (fuel-driven). -/
def scanPrefixVer (lits : List (List Char)) : Nat → List Char → List (List Char)
  | 0, _ => []
  | _ + 1, [] => []
  | fuel + 1, c :: rest =>
    match tryPrefixVer lits (c :: rest) with
    | some (tok, after) => tok :: scanPrefixVer lits fuel after
    | none => scanPrefixVer lits fuel rest

/-- One attempt of `(<=|>=|<|>)\s*([0-9][ver]*)`, alternatives in order. -/
def tryOpsVer : List String → List Char → Option (String × List Char × List Char)
  | [], _ => none
  | op :: more, l =>
    match matchLit op.data l with
    | some rest =>
      match verTok (rest.dropWhile isPySpace) with
      | some (tok, after) => some (op, tok, after)
      | none => tryOpsVer more l
    | none => tryOpsVer more l

/-- Embeds `re.finditer` over `(<=|>=|<|>)\s*([0-9][ver]*)`. -/
def scanOpVer : Nat → List Char → List (String × List Char)
  | 0, _ => []
  | _ + 1, [] => []
  | fuel + 1, c :: rest =>
    match tryOpsVer ["<=", ">=", "<", ">"] (c :: rest) with
    | some (op, tok, after) => (op, tok) :: scanOpVer fuel after
    | none => scanOpVer fuel rest

/-- One attempt of `([0-9][ver]*)\s+and\s+earlier` (greedy token, no
backtracking into a shorter token — Python's backtracking can only shrink
the token into letters that then fail the literal, so results agree). -/
def tryAndEarlier (l : List Char) : Option (List Char × List Char) :=
  match verTok l with
  | some (tok, rest) =>
    match spaces1 rest with
    | some r1 =>
      match matchLit "and".data r1 with
      | some r2 =>
        match spaces1 r2 with
        | some r3 =>
          match matchLit "earlier".data r3 with
          | some r4 => some (tok, r4)
          | none => none
        | none => none
      | none => none
    | none => none
  | none => none

/-- Embeds `re.finditer` over `([0-9][ver]*)\s+and\s+earlier`. -/
def scanAndEarlier : Nat → List Char → List (List Char)
  | 0, _ => []
  | _ + 1, [] => []
  | fuel + 1, c :: rest =>
    match tryAndEarlier (c :: rest) with
    | some (tok, after) => tok :: scanAndEarlier fuel after
    | none => scanAndEarlier fuel rest

/-- One attempt of `versions?\s+([0-9][ver]*)` (greedy optional `s` with
backtracking). -/
def tryVersionsTok (l : List Char) : Option (List Char) :=
  match matchLit "version".data l with
  | some rest =>
    let withS : Option (List Char) :=
      match rest with
      | c :: r2 =>
        if c = 's' then
          match spaces1 r2 with
          | some r3 => (verTok r3).map Prod.fst
          | none => none
        else none
      | [] => none
    match withS with
    | some tok => some tok
    | none =>
      match spaces1 rest with
      | some r3 => (verTok r3).map Prod.fst
      | none => none
  | none => none

/-- Embeds `re.search` over `versions?\s+([0-9][ver]*)`: first match only. -/
def searchVersionsTok : Nat → List Char → Option (List Char)
  | 0, _ => none
  | _ + 1, [] => none
  | fuel + 1, c :: rest =>
    match tryVersionsTok (c :: rest) with
    | some tok => some tok
    | none => searchVersionsTok fuel rest

/-- Embeds `reporting.extract_version_constraints`: lowercase the product text and
accumulate, in the source's order, `before`/`prior to` (`<`), `through`
(`<=`), explicit comparison operators, `… and earlier` (`<=`), and — only
when nothing else matched — the fallback `version(s) v` (`==`). -/
def extract_version_constraints (product : String) : List VersionConstraint :=
  if product = "" then []
  else
    let text := product.data.map toLowerPy
    let n := text.length
    let c1 := (scanPrefixVer ["before".data, "prior to".data] n text).filterMap
      fun tok => (parse_version (String.mk tok)).map fun v => ⟨"<", v, none⟩
    let c2 := (scanPrefixVer ["through".data] n text).filterMap
      fun tok => (parse_version (String.mk tok)).map fun v => ⟨"<=", v, none⟩
    let c3 := (scanOpVer n text).filterMap
      fun p => (parse_version (String.mk p.2)).map fun v => ⟨p.1, v, none⟩
    let c4 := (scanAndEarlier n text).filterMap
      fun tok => (parse_version (String.mk tok)).map fun v => ⟨"<=", v, none⟩
    let cs := c1 ++ c2 ++ c3 ++ c4
    if cs = [] then
      match searchVersionsTok n text with
      | some tok =>
        match parse_version (String.mk tok) with
        | some v => [⟨"==", v, none⟩]
        | none => []
      | none => []
    else cs

/-- Embeds `reporting.version_is_vulnerable`: `match` when some constraint is
satisfied, else `mismatch` when some constraint is violated, `unknown`
when nothing can be concluded. -/
def version_is_vulnerable (installed_version : Option String) (product_text : String) :
    String :=
  match installed_version with
  | none => "unknown"
  | some s =>
    if s = "" then "unknown"
    else
      match parse_version s with
      | none => "unknown"
      | some iv =>
        let constraints := extract_version_constraints product_text
        if constraints = [] then "unknown"
        else
          let any_match := constraints.any fun c => version_satisfies iv c
          let any_contra := constraints.any fun c => !(version_satisfies iv c)
          if any_match then "match"
          else if any_contra then "mismatch"
          else "unknown"

/-- Python `(x or '')` on an optional string. -/
def pyOrEmpty : Option String → String
  | some s => s
  | none => ""

/-- A row of `agent_software` as read by the correlation loop. -/
structure SwRow where
  name : Option String
  version : Option String
  publisher : Option String
  deriving DecidableEq, Repr

/-- The fields of a `vulnerabilities` row used by the correlation loop. -/
structure VulnRow where
  vendor : Option String
  product : Option String
  title : Option String
  deriving DecidableEq, Repr

/-- Embeds `reporting.SIM_THRESHOLD_NAME`. -/
def SIM_THRESHOLD_NAME : ℚ := 1 / 2

/-- Embeds `reporting.SIM_THRESHOLD_VENDOR`. -/
def SIM_THRESHOLD_VENDOR : ℚ := 1 / 2

/-- The per-pair body of `reporting.match_vulns_for_agent`: `none` when
the software/disclosure pair is skipped (blank name, no product tokens,
name similarity below threshold, vendor similarity below threshold, or
version verdict `mismatch`), otherwise `some verdict` — the verdict the
pair is retained with. -/
def pair_decision (sw : SwRow) (v : VulnRow) : Option String :=
  let sw_name := pyStrip (pyOrEmpty sw.name)
  if sw_name = "" then none
  else
    let sw_publisher := pyStrip (pyOrEmpty sw.publisher)
    let sw_name_tokens := normalize_text sw_name
    let sw_pub_tokens := normalize_text sw_publisher
    let v_product := pyStrip (pyOrEmpty v.product)
    let v_vendor := pyStrip (pyOrEmpty v.vendor)
    let prod_tokens :=
      let t := normalize_text v_product
      if t = [] then normalize_text (pyOrEmpty v.title) else t
    if prod_tokens = [] then none
    else if tokens_similarity sw_name_tokens prod_tokens < SIM_THRESHOLD_NAME then none
    else if v_vendor ≠ "" ∧ sw_publisher ≠ "" ∧
        tokens_similarity sw_pub_tokens (normalize_text v_vendor) < SIM_THRESHOLD_VENDOR then
      none
    else
      let vcheck := version_is_vulnerable sw.version v_product
      if vcheck = "mismatch" then none else some vcheck

/-- A value decoded by `json.loads`.  JSON numbers are modelled as integers
(float payload fields are not exercised by any claim). -/
inductive JsonVal where
  | null
  | bool (b : Bool)
  | num (n : Int)
  | str (s : String)
  | arr (l : List JsonVal)
  | obj (fields : List (String × JsonVal))

/-- Python truthiness of a decoded JSON value (`if not x`). -/
def pyTruthy : JsonVal → Bool
  | .null => false
  | .bool b => b
  | .num n => n != 0
  | .str s => s ≠ ""
  | .arr l => !l.isEmpty
  | .obj f => !f.isEmpty

/-- Comma-join, as Python renders list/dict items. -/
def joinComma : List String → String
  | [] => ""
  | [s] => s
  | s :: rest => s ++ ", " ++ joinComma rest

mutual
/-- Python `str()` of a decoded JSON value.  Scalars are rendered exactly;
for containers the rendering models `repr` of elements whose nested strings
contain no quotes, backslashes or control characters (Python escaping of
such characters is not modelled — no identifier-bearing payload contains
them). -/
def pyStr : JsonVal → String
  | .null => "None"
  | .bool true => "True"
  | .bool false => "False"
  | .num n => toString n
  | .str s => s
  | .arr l => "[" ++ joinComma (reprList l) ++ "]"
  | .obj f => "\x7b" ++ joinComma (reprFields f) ++ "\x7d"

/-- Python `repr()` of a decoded JSON value (same caveat on escaping). -/
def pyRepr : JsonVal → String
  | .null => "None"
  | .bool true => "True"
  | .bool false => "False"
  | .num n => toString n
  | .str s => "\x27" ++ s ++ "\x27"
  | .arr l => "[" ++ joinComma (reprList l) ++ "]"
  | .obj f => "\x7b" ++ joinComma (reprFields f) ++ "\x7d"

/-- Embeds `repr` of each element of a list. -/
def reprList : List JsonVal → List String
  | [] => []
  | v :: rest => pyRepr v :: reprList rest

/-- Embeds `repr` of each `key: value` entry of a dict. -/
def reprFields : List (String × JsonVal) → List String
  | [] => []
  | (k, v) :: rest => ("\x27" ++ k ++ "\x27: " ++ pyRepr v) :: reprFields rest
end

/-- Python `dict.get` on a decoded JSON object (`json.loads` keeps the
last occurrence of a duplicated key). -/
def pyGet (fields : List (String × JsonVal)) (k : String) : Option JsonVal :=
  (fields.reverse.find? fun q => q.1 = k).map Prod.snd

/-- Embeds `dict.get` through a `JsonVal` that may not be an object; `none` both
for a missing key and for a non-object (the latter raises in Python and is
guarded before use here). -/
def objGet : JsonVal → String → Option JsonVal
  | .obj fields, k => pyGet fields k
  | _, _ => none

/-- A row of the `agents` table. -/
structure AgentRow where
  agent_id : String
  hostname : Option JsonVal
  os_type : Option JsonVal
  os_release : Option JsonVal
  os_version : Option JsonVal
  architecture : Option JsonVal
  ip_address : Option JsonVal
  first_seen : String
  last_seen : String

/-- A row of the `agent_software` table. -/
structure SoftwareRow where
  agent_id : String
  name : String
  version : Option String
  publisher : Option String
  first_seen : String
  last_seen : String

/-- The two agent-facing tables of the SQLite store. -/
structure Db where
  agents : List AgentRow
  software : List SoftwareRow

/-- One entry of the `software` list as consumed by
`upsert_agent_inventory` (string-or-absent fields; a non-string field
raises inside the transaction and is guarded before the call here). -/
structure SwEntry where
  name : Option String
  version : Option String
  publisher : Option String

/-- Python `(x or '').strip() or None` on an optional string field. -/
def noneIfBlank (x : Option String) : Option String :=
  let s := pyStrip (pyOrEmpty x)
  if s = "" then none else some s

/-- The software rows built by `upsert_agent_inventory`: entries whose
stripped `name` is blank are skipped; `version`/`publisher` are stripped
and blank becomes NULL; `first_seen = last_seen = now`. -/
def clean_software_rows (agent_id : String) (l : List SwEntry) (now : String) :
    List SoftwareRow :=
  l.filterMap fun item =>
    let name := pyStrip (pyOrEmpty item.name)
    if name = "" then none
    else some ⟨agent_id, name, noneIfBlank item.version, noneIfBlank item.publisher, now, now⟩

/-- The `INSERT … ON CONFLICT(agent_id) DO UPDATE` over `agents`: insert a
fresh row (with `first_seen = last_seen = ts` defaults), or overwrite every
host fact and `last_seen` while keeping `first_seen`. -/
def upsert_agents (agents : List AgentRow) (aid : String)
    (h ot orel ov arch ip : Option JsonVal) (ts : String) : List AgentRow :=
  if agents.any fun r => r.agent_id = aid then
    agents.map fun r =>
      if r.agent_id = aid then
        { r with hostname := h, os_type := ot, os_release := orel, os_version := ov,
                 architecture := arch, ip_address := ip, last_seen := ts }
      else r
  else agents ++ [⟨aid, h, ot, orel, ov, arch, ip, ts, ts⟩]

/-- Embeds `db.upsert_agent_inventory`: upsert the agent row, then `DELETE FROM
agent_software WHERE agent_id = ?` and insert the cleaned rows, in one
transaction. -/
def upsert_agent_inventory (db : Db) (aid : String)
    (h ot orel ov arch ip : Option JsonVal)
    (software_list : List SwEntry) (ts : String) : Db :=
  { agents := upsert_agents db.agents aid h ot orel ov arch ip ts,
    software := (db.software.filter fun r => ¬ (r.agent_id = aid))
      ++ clean_software_rows aid software_list ts }

/-- The cryptographic and decoding effects of the ingestion path, kept
abstract: `none` models the exception each Python call can raise
(`binascii.Error`, RSA-OAEP failure, AES-GCM `InvalidTag`, `json.loads`
errors or a non-object payload). -/
structure IngestOracles where
  b64 : String → Option (List Nat)
  rsa : List Nat → Option (List Nat)
  aes : List Nat → List Nat → List Nat → List Nat → Option (List Nat)
  jsonParse : List Nat → Option (List (String × JsonVal))

/-- Embeds `agent_api._decrypt_payload`: base64-decode both fields, RSA-OAEP
unwrap the AES key, reject `enc_data` shorter than `12 + 16` bytes, then
AES-GCM-decrypt `nonce(12) ‖ tag(16) ‖ ciphertext` and parse the JSON.
Any failure is an exception (`none`), caught by the caller. -/
def decrypt_payload (o : IngestOracles) (enc_key_b64 enc_data_b64 : String) :
    Option (List (String × JsonVal)) :=
  match o.b64 enc_key_b64 with
  | none => none
  | some enc_key =>
    match o.b64 enc_data_b64 with
    | none => none
    | some enc_data =>
      match o.rsa enc_key with
      | none => none
      | some aes_key =>
        if enc_data.length < 12 + 16 then none
        else
          let nonce := enc_data.take 12
          let tag := (enc_data.drop 12).take 16
          let ciphertext := enc_data.drop 28
          match o.aes aes_key nonce tag ciphertext with
          | none => none
          | some plaintext => o.jsonParse plaintext

/-- The response classifications of `agent_report`. -/
inductive ApiResp where
  | ok
  | bad_json
  | enc_key_or_enc_data_missing
  | private_key_error
  | decrypt_failed
  | agent_id_missing
  | db_error
  deriving DecidableEq, Repr

/-- A string-or-absent field of a software entry (`none` in the outer
option = a truthy non-string value, which raises on `.strip()`). -/
def strField (fields : List (String × JsonVal)) (k : String) :
    Option (Option String) :=
  match pyGet fields k with
  | none => some none
  | some .null => some none
  | some (.str s) => some (some s)
  | some v => if pyTruthy v then none else some none

/-- Entry-wise conversion for `toSwEntries`. -/
def toSwEntriesList : List JsonVal → Option (List SwEntry)
  | [] => some []
  | .obj fields :: rest =>
    match strField fields "name", strField fields "version", strField fields "publisher" with
    | some n, some v, some p =>
      (toSwEntriesList rest).map fun es => ⟨n, v, p⟩ :: es
    | _, _, _ => none
  | _ :: _ => none

/-- Convert the decoded `software` JSON value (after `or []`) to typed
entries; `none` models the exceptions Python raises inside the write
transaction for a non-list, a non-dict element, or a non-string truthy
field (surfacing as `db_error` with no write). -/
def toSwEntries : JsonVal → Option (List SwEntry)
  | .arr l => toSwEntriesList l
  | _ => none

/-- Embeds `os_info = payload.get('os_info') or \x7b\x7d`. -/
def osInfoOf (payload : List (String × JsonVal)) : JsonVal :=
  match pyGet payload "os_info" with
  | some v => if pyTruthy v then v else .obj []
  | none => .obj []

/-- Embeds `software = payload.get('software') or []`. -/
def softwareOf (payload : List (String × JsonVal)) : JsonVal :=
  match pyGet payload "software" with
  | some v => if pyTruthy v then v else .arr []
  | none => .arr []

/-- Embeds `ip_address = payload.get('ip_address') or None`. -/
def ipOf (payload : List (String × JsonVal)) : Option JsonVal :=
  match pyGet payload "ip_address" with
  | some v => if pyTruthy v then some v else none
  | none => none

/-- Embeds `agent_api.agent_report`: the request pipeline.  `body` is the parsed
JSON body (`none` = parse exception → `bad_json`); `keyLoads` is whether
the private key loads; `dbOk` is whether the SQLite transaction commits;
`ts` is the transaction timestamp.  Returns the response classification
and the database after the request (unchanged on every failure path —
an uncommitted transaction is rolled back on close).  The source extracts
`os_info`/`software`/`ip_address` before the `agent_id` check; the
extraction is pure, so referring to it through `osInfoOf`/`softwareOf`/
`ipOf` at the use sites is equivalent. -/
def agent_report (o : IngestOracles) (keyLoads dbOk : Bool) (ts : String)
    (db : Db) (body : Option (Option String × Option String)) : ApiResp × Db :=
  match body with
  | none => (.bad_json, db)
  | some (ek?, ed?) =>
    match ek?, ed? with
    | some ek, some ed =>
      if ek = "" ∨ ed = "" then (.enc_key_or_enc_data_missing, db)
      else if keyLoads = false then (.private_key_error, db)
      else
        match decrypt_payload o ek ed with
        | none => (.decrypt_failed, db)
        | some payload =>
          match pyGet payload "agent_id" with
          | none => (.agent_id_missing, db)
          | some aid =>
            if pyTruthy aid = false then (.agent_id_missing, db)
            else
              match osInfoOf payload with
              | .obj osf =>
                match toSwEntries (softwareOf payload) with
                | none => (.db_error, db)
                | some entries =>
                  if dbOk then
                    (.ok, upsert_agent_inventory db (pyStr aid)
                      (pyGet osf "hostname") (pyGet osf "os_type")
                      (pyGet osf "os_release") (pyGet osf "os_version")
                      (pyGet osf "architecture") (ipOf payload) entries ts)
                  else (.db_error, db)
              | _ => (.db_error, db)
    | _, _ => (.enc_key_or_enc_data_missing, db)

/-- Concrete effect oracles used by the witnesses: code-point base64,
identity RSA unwrap, passthrough AES, and a fixed decoded payload. -/
def sampleOracles : IngestOracles where
  b64 := fun s => some (s.data.map Char.toNat)
  rsa := fun k => some k
  aes := fun _ _ _ ct => some ct
  jsonParse := fun _ => some [("agent_id", .num 7)]

/-- One aggregated record: the display number `№`, the unified source-link
column (`Источник`, possibly missing like a CSV NaN), and all remaining
columns abstracted as a payload.  `_unify_source_column` and
`_apply_output_order` act on column names only and never change rows, so
they are identities at this level. -/
structure SrcRow (α : Type) where
  num : Nat
  src : Option String
  payload : α

/-- The dedup key of `_build_final_dataframe`: `_normalize_url` mapped over
the source column (non-string/missing entries pass through, and pandas
treats missing keys as duplicates of each other, hence `Option.map`).  The
pipeline is stated over an arbitrary normalizer `norm`, which covers the
real `_normalize_url` (urlsplit, `utm_*` filtering, fragment drop) as an
instance. -/
def norm_key {α : Type} (norm : String → String) (r : SrcRow α) : Option String :=
  r.src.map norm

/-- Keep the first occurrence of every key, dropping later duplicates. -/
def dedup_keep_first {α : Type} (key : SrcRow α → Option String) :
    List (SrcRow α) → List (SrcRow α)
  | [] => []
  | r :: rest => r :: dedup_keep_first key (rest.filter fun x => key x ≠ key r)
termination_by l => l.length
decreasing_by
  simp only [List.length_cons]
  exact Nat.lt_succ_of_le (List.length_filter_le _ _)

/-- Embeds `drop_duplicates(subset=['_src_norm'], keep='last')`: keep the last
occurrence of every key, preserving the relative order of kept rows. -/
def dedup_keep_last {α : Type} (key : SrcRow α → Option String)
    (l : List (SrcRow α)) : List (SrcRow α) :=
  (dedup_keep_first key l.reverse).reverse

/-- Embeds `_sort_and_renumber`: stable sort (pandas `mergesort`) by whatever
comparison the present columns induce (abstract here), then drop and
re-insert the display column `№` as `1..n`. -/
def sort_and_renumber {α : Type} (le : SrcRow α → SrcRow α → Bool)
    (l : List (SrcRow α)) : List (SrcRow α) :=
  (l.mergeSort le).enum.map fun p => { p.2 with num := p.1 + 1 }

/-- Embeds `_build_final_dataframe`: concatenate the shard parts, unify the
source column, dedup on the normalized link keeping the last occurrence,
apply the column order, sort and renumber; an empty combination yields the
empty frame. -/
def build_final {α : Type} (norm : String → String)
    (le : SrcRow α → SrcRow α → Bool) (shards : List (List (SrcRow α))) :
    List (SrcRow α) :=
  let combined := shards.flatten
  if combined.isEmpty then []
  else sort_and_renumber le (dedup_keep_last (norm_key norm) combined)

/-- The dictionary returned by the upstream probe
`get_latest_from_news_count`, as `.get` reads it. -/
structure ProbeNews where
  news_url : Option String
  count : Option Int

/-- The inputs of one iteration of `autonomous_loop`: the probe result
(`none` = the probe raised), the persisted checkpoint (the stripped
contents of `last_seen_news.txt`; `none` = no file), and the result of
`get_latest_bdu_id` (`none` = it raised). -/
structure PollInput where
  probe : Option ProbeNews
  lastSeen : Option String
  latest : Option String

/-- The observable outcome of one iteration: the id range handed to
`process_range_from_to` (if any) and the pointer written to the
checkpoint file (if any). -/
structure PollOutcome where
  harvested : Option (List Char × List Char)
  checkpointWrite : Option String
  deriving DecidableEq, Repr

/-- One iteration of the body of `autonomous_loop`: warn and skip when the
probe raised, the news URL is falsy, or `count or 0` is non-positive; no-op
when the pointer equals the checkpoint; otherwise harvest
`[subtract_steps(latest, count - 1), latest]` and then persist the new
pointer.  An exception from `get_latest_bdu_id` or from `subtract_steps`
is caught by the surrounding `except` and produces no action. -/
def poll_once (inp : PollInput) : PollOutcome :=
  match inp.probe with
  | none => ⟨none, none⟩
  | some news =>
    let count : Int := news.count.getD 0
    match news.news_url with
    | none => ⟨none, none⟩
    | some url =>
      if url = "" ∨ count ≤ 0 then ⟨none, none⟩
      else if inp.lastSeen ≠ some url then
        match inp.latest with
        | none => ⟨none, none⟩
        | some latest =>
          match subtract_steps latest.data (count - 1) with
          | none => ⟨none, none⟩
          | some first => ⟨some (first, latest.data), some url⟩
      else ⟨none, none⟩

/-! ## Lemmas, claim theorems, witnesses and counterexamples -/

theorem char_toNat_injective {a b : Char} (h : a.toNat = b.toNat) : a = b := by
  have := congrArg Char.ofNat h
  simpa [Char.ofNat_toNat] using this

theorem digitVal_digitChar {d : Nat} (h : d < 10) :
    digitVal (Nat.digitChar d) = d := by
  interval_cases d <;> rfl

theorem isDig_digitChar {d : Nat} (h : d < 10) : isDig (Nat.digitChar d) = true := by
  interval_cases d <;> rfl

theorem digitChar_digitVal {c : Char} (h : isDig c = true) :
    Nat.digitChar (digitVal c) = c := by
  simp only [isDig, Bool.and_eq_true, decide_eq_true_eq] at h
  obtain ⟨h1, h2⟩ := h
  apply char_toNat_injective
  unfold digitVal
  interval_cases h : c.toNat <;> simp [h] <;> decide

theorem digitVal_lt_ten {c : Char} (h : isDig c = true) : digitVal c < 10 := by
  simp only [isDig, Bool.and_eq_true, decide_eq_true_eq] at h
  unfold digitVal
  omega

theorem digitVal_inj {a b : Char} (ha : isDig a = true) (hb : isDig b = true)
    (h : digitVal a = digitVal b) : a = b := by
  simp only [isDig, Bool.and_eq_true, decide_eq_true_eq] at ha hb
  unfold digitVal at h
  exact char_toNat_injective (by omega)

theorem isDig_ne_dash {c : Char} (h : isDig c = true) : c ≠ '-' := by
  intro hc
  subst hc
  exact absurd h (by decide)

theorem isDig_not_space {c : Char} (h : isDig c = true) : isPySpace c = false := by
  by_contra hb
  have hsp : isPySpace c = true := by simpa using hb
  unfold isPySpace at hsp
  simp only [Bool.or_eq_true, decide_eq_true_eq] at hsp
  rcases hsp with ((((hc | hc) | hc) | hc) | hc) | hc <;> subst hc <;>
    exact absurd h (by decide)

theorem parseVal_nil : parseVal [] = 0 := rfl

theorem parseVal_foldl_from (ds : List Char) :
    ∀ a : Nat, ds.foldl (fun x c => 10 * x + digitVal c) a
      = a * 10 ^ ds.length + parseVal ds := by
  induction ds with
  | nil => intro a; simp [parseVal]
  | cons d ds ih =>
    intro a
    show ds.foldl _ (10 * a + digitVal d) = _
    rw [ih (10 * a + digitVal d)]
    have h2 : parseVal (d :: ds) = (10 * 0 + digitVal d) * 10 ^ ds.length + parseVal ds := by
      show ds.foldl _ (10 * 0 + digitVal d) = _
      rw [ih (10 * 0 + digitVal d)]
    rw [h2]
    simp [List.length_cons, pow_succ]
    ring

theorem parseVal_cons (c : Char) (ds : List Char) :
    parseVal (c :: ds) = digitVal c * 10 ^ ds.length + parseVal ds := by
  show ds.foldl _ (10 * 0 + digitVal c) = _
  rw [parseVal_foldl_from]
  ring_nf

theorem parseVal_lt (ds : List Char) (h : ∀ c ∈ ds, isDig c = true) :
    parseVal ds < 10 ^ ds.length := by
  induction ds with
  | nil => simp [parseVal]
  | cons d ds ih =>
    rw [parseVal_cons]
    have hd : digitVal d < 10 := digitVal_lt_ten (h d (List.mem_cons_self d ds))
    have ht := ih (fun c hc => h c (List.mem_cons_of_mem d hc))
    have : digitVal d * 10 ^ ds.length + parseVal ds
        < digitVal d * 10 ^ ds.length + 10 ^ ds.length := by omega
    calc digitVal d * 10 ^ ds.length + parseVal ds
        < (digitVal d + 1) * 10 ^ ds.length := by rw [add_mul, one_mul]; omega
      _ ≤ 10 * 10 ^ ds.length := by
          apply Nat.mul_le_mul_right
          omega
      _ = 10 ^ (d :: ds).length := by rw [List.length_cons, pow_succ]; ring

theorem parseVal_injective (ds es : List Char) (hlen : ds.length = es.length)
    (hd : ∀ c ∈ ds, isDig c = true) (he : ∀ c ∈ es, isDig c = true)
    (h : parseVal ds = parseVal es) : ds = es := by
  induction ds generalizing es with
  | nil =>
    cases es with
    | nil => rfl
    | cons _ _ => simp at hlen
  | cons d ds ih =>
    cases es with
    | nil => simp at hlen
    | cons e es =>
      simp only [List.length_cons, Nat.add_right_cancel_iff] at hlen
      rw [parseVal_cons, parseVal_cons, hlen] at h
      have hds := parseVal_lt ds (fun c hc => hd c (List.mem_cons_of_mem d hc))
      have hes := parseVal_lt es (fun c hc => he c (List.mem_cons_of_mem e hc))
      rw [hlen] at hds
      have hv : digitVal d = digitVal e ∧ parseVal ds = parseVal es := by
        constructor
        · by_contra hne
          rcases Nat.lt_or_ge (digitVal d) (digitVal e) with hlt | hge
          · have : digitVal d * 10 ^ es.length + 10 ^ es.length
                ≤ digitVal e * 10 ^ es.length := by
              have : (digitVal d + 1) ≤ digitVal e := hlt
              calc digitVal d * 10 ^ es.length + 10 ^ es.length
                  = (digitVal d + 1) * 10 ^ es.length := by ring
                _ ≤ digitVal e * 10 ^ es.length := Nat.mul_le_mul_right _ this
            omega
          · have hgt : digitVal e < digitVal d := by omega
            have : digitVal e * 10 ^ es.length + 10 ^ es.length
                ≤ digitVal d * 10 ^ es.length := by
              have : (digitVal e + 1) ≤ digitVal d := hgt
              calc digitVal e * 10 ^ es.length + 10 ^ es.length
                  = (digitVal e + 1) * 10 ^ es.length := by ring
                _ ≤ digitVal d * 10 ^ es.length := Nat.mul_le_mul_right _ this
            omega
        · by_contra
          have : digitVal d ≠ digitVal e := by
            intro hq
            rw [hq] at h
            omega
          rcases Nat.lt_or_ge (digitVal d) (digitVal e) with hlt | hge
          · have : digitVal d * 10 ^ es.length + 10 ^ es.length
                ≤ digitVal e * 10 ^ es.length := by
              calc digitVal d * 10 ^ es.length + 10 ^ es.length
                  = (digitVal d + 1) * 10 ^ es.length := by ring
                _ ≤ digitVal e * 10 ^ es.length := Nat.mul_le_mul_right _ hlt
            omega
          · have hgt : digitVal e < digitVal d := by omega
            have : digitVal e * 10 ^ es.length + 10 ^ es.length
                ≤ digitVal d * 10 ^ es.length := by
              calc digitVal e * 10 ^ es.length + 10 ^ es.length
                  = (digitVal e + 1) * 10 ^ es.length := by ring
                _ ≤ digitVal d * 10 ^ es.length := Nat.mul_le_mul_right _ hgt
            omega
      have hde : d = e :=
        digitVal_inj (hd d (List.mem_cons_self d ds)) (he e (List.mem_cons_self e es)) hv.1
      rw [hde, ih es hlen (fun c hc => hd c (List.mem_cons_of_mem d hc))
        (fun c hc => he c (List.mem_cons_of_mem e hc)) hv.2]

theorem all_isDig_natDigitsAux (f : Nat) : ∀ n, ∀ c ∈ natDigitsAux f n, isDig c = true := by
  induction f with
  | zero => intro n c hc; simp [natDigitsAux] at hc
  | succ f ih =>
    intro n c hc
    rw [natDigitsAux] at hc
    by_cases hn : n = 0
    · simp [hn] at hc
    · simp only [hn, if_false, List.mem_append, List.mem_singleton] at hc
      rcases hc with hc | hc
      · exact ih (n / 10) c hc
      · subst hc; exact isDig_digitChar (Nat.mod_lt n (by norm_num))

theorem parseVal_natDigitsAux (f : Nat) : ∀ n, n < 10 ^ f →
    parseVal (natDigitsAux f n) = n := by
  induction f with
  | zero => intro n hn; interval_cases n; rfl
  | succ f ih =>
    intro n hn
    rw [natDigitsAux]
    by_cases h0 : n = 0
    · simp [h0, parseVal]
    · simp only [h0, if_false]
      rw [parseVal, List.foldl_append]
      have hdiv : n / 10 < 10 ^ f := by
        rw [Nat.div_lt_iff_lt_mul (by norm_num)]
        calc n < 10 ^ (f + 1) := hn
          _ = 10 ^ f * 10 := by rw [pow_succ]
      have := ih (n / 10) hdiv
      rw [parseVal] at this
      simp only [List.foldl_cons, List.foldl_nil, this]
      rw [digitVal_digitChar (Nat.mod_lt n (by norm_num))]
      omega

theorem length_natDigitsAux (f : Nat) : ∀ w n, n < 10 ^ w →
    (natDigitsAux f n).length ≤ w := by
  induction f with
  | zero => intro w n _; simp [natDigitsAux]
  | succ f ih =>
    intro w n hn
    rw [natDigitsAux]
    by_cases h0 : n = 0
    · simp [h0]
    · simp only [h0, if_false, List.length_append, List.length_singleton]
      have hw : 1 ≤ w := by
        by_contra hc
        have : w = 0 := by omega
        subst this
        simp at hn
        omega
      have hdiv : n / 10 < 10 ^ (w - 1) := by
        rw [Nat.div_lt_iff_lt_mul (by norm_num)]
        calc n < 10 ^ w := hn
          _ = 10 ^ (w - 1) * 10 := by
              rw [← pow_succ]
              congr 1
              omega
      have := ih (w - 1) (n / 10) hdiv
      omega

theorem numChars_ne_nil (n : Nat) : numChars n ≠ [] := by
  unfold numChars
  by_cases h0 : n = 0
  · simp [h0]
  · simp only [h0, if_false]
    cases hn : natDigitsAux n n with
    | nil =>
      exfalso
      have := parseVal_natDigitsAux n n (Nat.lt_pow_self (by norm_num) n)
      rw [hn] at this
      exact h0 (by simpa [parseVal] using this.symm)
    | cons c cs => simp

theorem all_isDig_numChars (n : Nat) : ∀ c ∈ numChars n, isDig c = true := by
  unfold numChars
  by_cases h0 : n = 0
  · simp [h0]; decide
  · simp only [h0, if_false]
    exact all_isDig_natDigitsAux n n

theorem parseVal_numChars (n : Nat) : parseVal (numChars n) = n := by
  unfold numChars
  by_cases h0 : n = 0
  · subst h0; rfl
  · simp only [h0, if_false]
    exact parseVal_natDigitsAux n n (Nat.lt_pow_self (by norm_num) n)

theorem length_numChars_le {n w : Nat} (hn : n < 10 ^ w) (hw : 1 ≤ w) :
    (numChars n).length ≤ w := by
  unfold numChars
  by_cases h0 : n = 0
  · simpa [h0] using hw
  · simp only [h0, if_false]
    exact length_natDigitsAux n w n hn

theorem lt_pow_length_numChars (n : Nat) : n < 10 ^ (numChars n).length := by
  have := parseVal_lt (numChars n) (all_isDig_numChars n)
  rwa [parseVal_numChars] at this

theorem one_le_digitVal {c : Char} (hd : isDig c = true) (h0 : c ≠ '0') :
    1 ≤ digitVal c := by
  by_contra hc
  have hz : digitVal c = 0 := by omega
  exact h0 (digitVal_inj hd (by decide) (by simpa using hz))

theorem numChars_canonical (c : Char) (rest : List Char)
    (hd : ∀ x ∈ c :: rest, isDig x = true) (h0 : c ≠ '0') :
    numChars (parseVal (c :: rest)) = c :: rest := by
  set v := parseVal (c :: rest) with hv
  have hub : (numChars v).length ≤ rest.length + 1 := by
    apply length_numChars_le _ (by omega)
    have := parseVal_lt (c :: rest) hd
    simpa using this
  have hlb : 10 ^ rest.length ≤ v := by
    rw [hv, parseVal_cons]
    have h1 : 1 ≤ digitVal c := one_le_digitVal (hd c (List.mem_cons_self c rest)) h0
    calc 10 ^ rest.length = 1 * 10 ^ rest.length := by ring
      _ ≤ digitVal c * 10 ^ rest.length := Nat.mul_le_mul_right _ h1
      _ ≤ digitVal c * 10 ^ rest.length + parseVal rest := Nat.le_add_right _ _
  have hlt : rest.length < (numChars v).length := by
    have hvlt : v < 10 ^ (numChars v).length := lt_pow_length_numChars v
    have : (10:Nat) ^ rest.length < 10 ^ (numChars v).length := lt_of_le_of_lt hlb hvlt
    exact (Nat.pow_lt_pow_iff_right (by norm_num)).mp this
  have hlen : (numChars v).length = (c :: rest).length := by
    simp only [List.length_cons]
    omega
  exact parseVal_injective _ _ hlen (all_isDig_numChars v) hd
    (by rw [parseVal_numChars])

theorem foldl_replicate_zero (k : Nat) :
    List.foldl (fun a c => 10 * a + digitVal c) 0 (List.replicate k '0') = 0 := by
  induction k with
  | zero => rfl
  | succ k ih => simpa [List.replicate_succ, digitVal] using ih

theorem parseVal_replicate_zero (k : Nat) (ds : List Char) :
    parseVal (List.replicate k '0' ++ ds) = parseVal ds := by
  unfold parseVal
  rw [List.foldl_append, foldl_replicate_zero]

theorem pad_roundtrip : ∀ ds : List Char, ds ≠ [] → (∀ c ∈ ds, isDig c = true) →
    padLeft ds.length (numChars (parseVal ds)) = ds := by
  intro ds
  induction ds with
  | nil => intro h; exact absurd rfl h
  | cons c rest ih =>
    intro _ hd
    by_cases h0 : c = '0'
    · subst h0
      cases hrest : rest with
      | nil =>
        show padLeft 1 (numChars (parseVal ['0'])) = ['0']
        rfl
      | cons r rs =>
        rw [← hrest]
        have hrne : rest ≠ [] := by rw [hrest]; simp
        have hdr : ∀ x ∈ rest, isDig x = true :=
          fun x hx => hd x (List.mem_cons_of_mem _ hx)
        have hval : parseVal ('0' :: rest) = parseVal rest := by
          rw [parseVal_cons]
          simp [digitVal]
        have hlenN : (numChars (parseVal rest)).length ≤ rest.length := by
          apply length_numChars_le (parseVal_lt rest hdr)
          rw [hrest]; simp
        have hstep : padLeft ('0' :: rest).length (numChars (parseVal ('0' :: rest)))
            = '0' :: padLeft rest.length (numChars (parseVal rest)) := by
          rw [hval]
          unfold padLeft
          have : ('0' :: rest).length - (numChars (parseVal rest)).length
              = (rest.length - (numChars (parseVal rest)).length) + 1 := by
            simp only [List.length_cons]
            omega
          rw [this]
          simp [List.replicate_succ]
        rw [hstep, ih hrne hdr]
    · have hcan := numChars_canonical c rest hd h0
      rw [hcan]
      unfold padLeft
      simp

theorem dropWhile_eq_self_of_none {p : Char → Bool} {l : List Char}
    (h : ∀ c ∈ l, p c = false) : l.dropWhile p = l := by
  cases l with
  | nil => rfl
  | cons c cs =>
    rw [List.dropWhile_cons]
    simp [h c (List.mem_cons_self c cs)]

theorem pyStripChars_digits {ds : List Char} (h : ∀ c ∈ ds, isDig c = true) :
    pyStripChars ds = ds := by
  unfold pyStripChars
  rw [dropWhile_eq_self_of_none (fun c hc => isDig_not_space (h c hc))]
  rw [dropWhile_eq_self_of_none (fun c hc => isDig_not_space (h c (List.mem_reverse.mp hc)))]
  simp

theorem pyInt_digits {ds : List Char} (hne : ds ≠ []) (h : ∀ c ∈ ds, isDig c = true) :
    pyInt ds = some (parseVal ds) := by
  unfold pyInt
  rw [pyStripChars_digits h]
  simp only [hne, ne_eq, not_false_iff, true_and]
  rw [if_pos]
  exact (List.all_eq_true).mpr h

theorem length_pyStripChars_le (cs : List Char) : (pyStripChars cs).length ≤ cs.length := by
  unfold pyStripChars
  calc ((cs.dropWhile isPySpace).reverse.dropWhile isPySpace).reverse.length
      = ((cs.dropWhile isPySpace).reverse.dropWhile isPySpace).length := by
        rw [List.length_reverse]
    _ ≤ (cs.dropWhile isPySpace).reverse.length :=
        (List.dropWhile_sublist _).length_le
    _ = (cs.dropWhile isPySpace).length := by rw [List.length_reverse]
    _ ≤ cs.length := (List.dropWhile_sublist _).length_le

theorem pyInt_bound {ds : List Char} {v : Nat} (h : pyInt ds = some v) :
    v < 10 ^ ds.length ∧ 1 ≤ ds.length := by
  unfold pyInt at h
  set t := pyStripChars ds with ht
  by_cases hc : t ≠ [] ∧ t.all isDig
  · rw [if_pos hc] at h
    obtain ⟨hne, hall⟩ := hc
    have hv : v = parseVal t := by injection h; omega
    have hlt : parseVal t < 10 ^ t.length :=
      parseVal_lt t (fun c hcm => (List.all_eq_true).mp hall c hcm)
    have hlen : t.length ≤ ds.length := by rw [ht]; exact length_pyStripChars_le ds
    constructor
    · calc v = parseVal t := hv
        _ < 10 ^ t.length := hlt
        _ ≤ 10 ^ ds.length := Nat.pow_le_pow_right (by norm_num) hlen
    · have h1 : 0 < t.length := List.length_pos.mpr hne
      have hlen : t.length ≤ ds.length := by rw [ht]; exact length_pyStripChars_le ds
      omega
  · rw [if_neg hc] at h
    exact absurd h (by simp)

theorem splitOnDash_no_dash {cs : List Char} (h : ∀ c ∈ cs, c ≠ '-') :
    splitOnDash cs = [cs] := by
  induction cs with
  | nil => rfl
  | cons c rest ih =>
    rw [splitOnDash]
    have hc : c ≠ '-' := h c (List.mem_cons_self c rest)
    simp only [hc, if_false]
    rw [ih (fun x hx => h x (List.mem_cons_of_mem c hx))]

theorem splitOnDash_append {xs : List Char} (ys : List Char)
    (h : ∀ c ∈ xs, c ≠ '-') :
    splitOnDash (xs ++ '-' :: ys) = xs :: splitOnDash ys := by
  induction xs with
  | nil => simp [splitOnDash]
  | cons c rest ih =>
    have hc : c ≠ '-' := h c (List.mem_cons_self c rest)
    rw [List.cons_append, splitOnDash]
    simp only [hc, if_false]
    rw [ih (fun x hx => h x (List.mem_cons_of_mem c hx))]

theorem length_padLeft {w : Nat} {ds : List Char} (h : ds.length ≤ w) :
    (padLeft w ds).length = w := by
  unfold padLeft
  rw [List.length_append, List.length_replicate]
  omega

theorem split_id_fmtId {y n w : Nat} (h : (numChars n).length ≤ w) :
    split_id (fmtId y n w) = some (y, n, w) := by
  unfold fmtId split_id
  have hpad : ∀ c ∈ padLeft w (numChars n), isDig c = true := by
    intro c hc
    unfold padLeft at hc
    rw [List.mem_append] at hc
    rcases hc with hc | hc
    · rw [List.eq_of_mem_replicate hc]; decide
    · exact all_isDig_numChars n c hc
  have hys : ∀ c ∈ numChars y, c ≠ '-' :=
    fun c hc => isDig_ne_dash (all_isDig_numChars y c hc)
  have hns : ∀ c ∈ padLeft w (numChars n), c ≠ '-' :=
    fun c hc => isDig_ne_dash (hpad c hc)
  rw [splitOnDash_append _ hys, splitOnDash_no_dash hns]
  dsimp only
  have hpne : padLeft w (numChars n) ≠ [] := by
    have := numChars_ne_nil n
    unfold padLeft
    cases hnc : numChars n with
    | nil => exact absurd hnc this
    | cons a b => simp
  rw [pyInt_digits (numChars_ne_nil y) (all_isDig_numChars y),
    pyInt_digits hpne hpad]
  dsimp only
  have hval : parseVal (padLeft w (numChars n)) = n := by
    unfold padLeft
    rw [parseVal_replicate_zero, parseVal_numChars]
  rw [parseVal_numChars, hval, length_padLeft h]

theorem restRe_iff : ∀ l, restRe l = true ↔
    ∃ ds t, l = ds ++ t ∧ (∀ c ∈ ds, isDig c = true) ∧ (t = [] ∨ t = ['\n']) := by
  intro l
  induction l with
  | nil =>
    constructor
    · intro _; exact ⟨[], [], rfl, by simp, Or.inl rfl⟩
    · intro _; rfl
  | cons c rest ih =>
    cases rest with
    | nil =>
      show (isDig c || c = '\n') = true ↔ _
      constructor
      · intro h
        rw [Bool.or_eq_true] at h
        rcases h with h | h
        · exact ⟨[c], [], rfl, by simpa using h, Or.inl rfl⟩
        · have : c = '\n' := by simpa using h
          subst this
          exact ⟨[], ['\n'], rfl, by simp, Or.inr rfl⟩
      · rintro ⟨ds, t, heq, hdig, ht⟩
        rw [Bool.or_eq_true]
        rcases ht with ht | ht <;> subst ht
        · rw [List.append_nil] at heq
          subst heq
          exact Or.inl (hdig c (List.mem_cons_self c []))
        · cases ds with
          | nil =>
            simp only [List.nil_append, List.cons.injEq] at heq
            exact Or.inr (by simp [heq.1])
          | cons d ds2 =>
            simp only [List.cons_append, List.cons.injEq] at heq
            obtain ⟨_, heq2⟩ := heq
            exact absurd heq2 (by simp)
    | cons d rest2 =>
      show (isDig c && restRe (d :: rest2)) = true ↔ _
      rw [Bool.and_eq_true, ih]
      constructor
      · rintro ⟨hc, ds, t, heq, hdig, ht⟩
        refine ⟨c :: ds, t, by rw [List.cons_append, heq], ?_, ht⟩
        intro x hx
        rcases List.mem_cons.mp hx with hx | hx
        · subst hx; exact hc
        · exact hdig x hx
      · rintro ⟨ds, t, heq, hdig, ht⟩
        cases ds with
        | nil =>
          exfalso
          rcases ht with ht | ht <;> subst ht <;> simp at heq
        | cons e ds2 =>
          simp only [List.cons_append, List.cons.injEq] at heq
          obtain ⟨hce, heq2⟩ := heq
          subst hce
          exact ⟨hdig c (List.mem_cons_self c ds2),
            ds2, t, heq2, fun x hx => hdig x (List.mem_cons_of_mem c hx), ht⟩

theorem tailRe_iff : ∀ l, tailRe l = true ↔
    ∃ ds t, l = ds ++ t ∧ ds ≠ [] ∧ (∀ c ∈ ds, isDig c = true) ∧
      (t = [] ∨ t = ['\n']) := by
  intro l
  cases l with
  | nil =>
    constructor
    · intro h; exact absurd h (by decide)
    · rintro ⟨ds, t, heq, hne, -, -⟩
      cases ds with
      | nil => exact absurd rfl hne
      | cons _ _ => simp at heq
  | cons c rest =>
    cases rest with
    | nil =>
      show isDig c = true ↔ _
      constructor
      · intro h
        exact ⟨[c], [], rfl, by simp, by simpa using h, Or.inl rfl⟩
      · rintro ⟨ds, t, heq, hne, hdig, ht⟩
        cases ds with
        | nil => exact absurd rfl hne
        | cons d ds2 =>
          simp only [List.cons_append, List.cons.injEq] at heq
          obtain ⟨hcd, -⟩ := heq
          subst hcd
          exact hdig c (List.mem_cons_self c ds2)
    | cons d rest2 =>
      show (isDig c && restRe (d :: rest2)) = true ↔ _
      rw [Bool.and_eq_true, restRe_iff]
      constructor
      · rintro ⟨hc, ds, t, heq, hdig, ht⟩
        refine ⟨c :: ds, t, by rw [List.cons_append, heq], by simp, ?_, ht⟩
        intro x hx
        rcases List.mem_cons.mp hx with hx | hx
        · subst hx; exact hc
        · exact hdig x hx
      · rintro ⟨ds, t, heq, hne, hdig, ht⟩
        cases ds with
        | nil => exact absurd rfl hne
        | cons e ds2 =>
          simp only [List.cons_append, List.cons.injEq] at heq
          obtain ⟨hce, heq2⟩ := heq
          subst hce
          exact ⟨hdig c (List.mem_cons_self c ds2),
            ds2, t, heq2, fun x hx => hdig x (List.mem_cons_of_mem c hx), ht⟩

/-- Structural characterization of the compiled pattern `^\d{4}-\d+$` under
Python `re.match` semantics, at the character-list level: exactly four
digits, a dash, one or more digits, optionally followed by one final
newline (accepted by Python's `$`). -/
theorem idRe_iff (cs : List Char) : idRe cs = true ↔
    ∃ y n t : List Char, cs = y ++ '-' :: (n ++ t) ∧ y.length = 4 ∧
      (∀ c ∈ y, isDig c = true) ∧ n ≠ [] ∧ (∀ c ∈ n, isDig c = true) ∧
      (t = [] ∨ t = ['\n']) := by
  constructor
  · intro h
    match hl : cs with
    | [] => exact absurd h (by decide)
    | [a] => exact absurd h (by simp [idRe] at h)
    | [a, b] => exact absurd h (by simp [idRe] at h)
    | [a, b, c] => exact absurd h (by simp [idRe] at h)
    | [a, b, c, d] => exact absurd h (by simp [idRe] at h)
    | a :: b :: c :: d :: e :: rest =>
      simp only [idRe, Bool.and_eq_true, decide_eq_true_eq] at h
      obtain ⟨⟨⟨⟨⟨ha, hb⟩, hc⟩, hd⟩, he⟩, ht⟩ := h
      subst he
      obtain ⟨ds, t, heq, hne, hdig, htail⟩ := (tailRe_iff rest).mp ht
      refine ⟨[a, b, c, d], ds, t, by simp [heq], rfl, ?_, hne, hdig, htail⟩
      intro x hx
      simp only [List.mem_cons, List.not_mem_nil, or_false] at hx
      rcases hx with hx | hx | hx | hx <;> subst hx <;> assumption
  · rintro ⟨y, n, t, heq, hlen, hydig, hne, hndig, ht⟩
    match hy : y, hlen with
    | [a, b, c, d], _ =>
      subst hy
      rw [heq]
      show idRe (a :: b :: c :: d :: '-' :: (n ++ t)) = true
      simp only [idRe, Bool.and_eq_true, decide_eq_true_eq]
      refine ⟨⟨⟨⟨⟨?_, ?_⟩, ?_⟩, ?_⟩, trivial⟩, ?_⟩
      · exact hydig a (by simp)
      · exact hydig b (by simp)
      · exact hydig c (by simp)
      · exact hydig d (by simp)
      · exact (tailRe_iff (n ++ t)).mpr ⟨n, t, rfl, hne, hndig, ht⟩

/-- Embeds `split_id` on a four-digit-year identifier made of digit segments. -/
theorem split_id_strict {a b c d : Char} {rest : List Char}
    (hd : ∀ x ∈ [a, b, c, d], isDig x = true)
    (hrne : rest ≠ []) (hrdig : ∀ x ∈ rest, isDig x = true) :
    split_id (a :: b :: c :: d :: '-' :: rest)
      = some (parseVal [a, b, c, d], parseVal rest, rest.length) := by
  unfold split_id
  have h1 : splitOnDash ([a, b, c, d] ++ '-' :: rest) = [a, b, c, d] :: splitOnDash rest :=
    splitOnDash_append rest (fun x hx => isDig_ne_dash (hd x hx))
  have h2 : splitOnDash rest = [rest] :=
    splitOnDash_no_dash (fun x hx => isDig_ne_dash (hrdig x hx))
  have h3 : ([a, b, c, d] : List Char) ++ '-' :: rest = a :: b :: c :: d :: '-' :: rest := rfl
  rw [← h3, h1, h2]
  dsimp only
  rw [pyInt_digits (by simp) hd, pyInt_digits hrne hrdig]

/-- Bounds carried by a successful `split_id`: the parsed sequence value
fits in the recorded width. -/
theorem split_id_bound {cs : List Char} {y n w : Nat}
    (h : split_id cs = some (y, n, w)) : n < 10 ^ w ∧ 1 ≤ w := by
  unfold split_id at h
  match hsp : splitOnDash cs with
  | [] => rw [hsp] at h; exact absurd h (by simp)
  | [_] => rw [hsp] at h; exact absurd h (by simp)
  | _ :: _ :: _ :: _ => rw [hsp] at h; exact absurd h (by simp)
  | [ys, ns] =>
    rw [hsp] at h
    dsimp only at h
    match hy : pyInt ys, hn : pyInt ns with
    | none, _ => rw [hy] at h; exact absurd h (by simp)
    | some yv, none => rw [hy, hn] at h; exact absurd h (by simp)
    | some yv, some nv =>
      rw [hy, hn] at h
      simp only [Option.some.injEq, Prod.mk.injEq] at h
      obtain ⟨-, h2, h3⟩ := h
      subst h2
      subst h3
      exact pyInt_bound hn

/-- C3: for bounds that `_split_id` parses to the same year with
`n1 ≤ n2`, `iter_ids` returns exactly `n2 - n1 + 1` identifiers whose
sequence numbers are the contiguous, strictly increasing run
`n1, n1+1, …, n2`, each rendered zero-padded at the maximum of the two
stored widths (the re-parse of the `k`-th element yields exactly
`(year, n1 + k, max w1 w2)`); and it fails with the range error when the
years differ or `n2 < n1`. -/
theorem iter_ids_spec (s e : List Char) (y1 n1 w1 y2 n2 w2 : Nat)
    (hs : split_id s = some (y1, n1, w1)) (he : split_id e = some (y2, n2, w2)) :
    ((y1 = y2 ∧ n1 ≤ n2) → ∃ l, iter_ids s e = .ok l ∧ l.length = n2 - n1 + 1 ∧
      ∀ k, k < l.length → split_id (l.getD k []) = some (y1, n1 + k, max w1 w2))
    ∧ ((y1 ≠ y2 ∨ n2 < n1) → iter_ids s e = .error .range) := by
  constructor
  · rintro ⟨hy, hn⟩
    subst hy
    refine ⟨(List.range (n2 + 1 - n1)).map fun i => fmtId y1 (n1 + i) (max w1 w2),
      ?_, ?_, ?_⟩
    · unfold iter_ids
      rw [hs, he]
      dsimp only
      rw [if_neg]
      push_neg
      exact ⟨rfl, hn⟩
    · simp only [List.length_map, List.length_range]
      omega
    · intro k hk
      simp only [List.length_map, List.length_range] at hk
      rw [List.getD_eq_getElem _ _ (by simp; omega)]
      simp only [List.getElem_map, List.getElem_range]
      apply split_id_fmtId
      obtain ⟨hb2, hw2⟩ := split_id_bound he
      have hle : n1 + k ≤ n2 := by omega
      have : (numChars (n1 + k)).length ≤ w2 :=
        length_numChars_le (by omega) hw2
      omega
  · intro hbad
    unfold iter_ids
    rw [hs, he]
    dsimp only
    rw [if_pos hbad]

/-- C3 witness: a concrete successful range and a concrete rejected range. -/
theorem iter_ids_spec_witness :
    (∃ l, iter_ids "2024-05".data "2024-007".data = .ok l ∧ l.length = 7 - 5 + 1 ∧
      ∀ k, k < l.length → split_id (l.getD k []) = some (2024, 5 + k, max 2 3)) ∧
    iter_ids "2023-5".data "2024-7".data = .error .range := by
  constructor
  · exact (iter_ids_spec "2024-05".data "2024-007".data 2024 5 2 2024 7 3
      (by decide) (by decide)).1 ⟨rfl, by norm_num⟩
  · exact (iter_ids_spec "2023-5".data "2024-7".data 2023 5 1 2024 7 1
      (by decide) (by decide)).2 (Or.inl (by norm_num))

/-- C4 counterexample: `"0024-5"` is accepted by `validate_vuln_id`, yet
`subtract_steps("0024-5", 0)` returns `"24-5"`, not the original id — the
year's leading zeros are not reproduced by the `f'{year}-…'` rendering. -/
theorem subtract_steps_zero_counterexample :
    validate_vuln_id "0024-5" = true ∧
    subtract_steps "0024-5".data 0 = some "24-5".data ∧
    subtract_steps "0024-5".data 0 ≠ some "0024-5".data := by
  refine ⟨by decide, by decide, by decide⟩

/-- C4 (amended): for every id that `_split_id` parses and every
`steps ≥ 0`, `subtract_steps` succeeds, the resulting sequence is
`max 0 (n - steps)` — clamped at zero, never negative — and the stored
width `w` is preserved exactly (the result re-parses to the same year and
width); the identity `subtract_steps(id, 0) = id` holds on ids in
canonical form (`strict_form`: four-digit year without a leading zero, no
trailing newline), though not on every `validate_vuln_id`-accepted string. -/
theorem subtract_steps_spec :
    (∀ (s : List Char) (y n w : Nat) (steps : Int),
      split_id s = some (y, n, w) → 0 ≤ steps →
      subtract_steps s steps = some (fmtId y (max 0 ((n : Int) - steps)).toNat w) ∧
      split_id (fmtId y (max 0 ((n : Int) - steps)).toNat w)
        = some (y, (max 0 ((n : Int) - steps)).toNat, w))
    ∧ (∀ s : List Char, strict_form s = true → subtract_steps s 0 = some s) := by
  constructor
  · intro s y n w steps hsplit hsteps
    have hmax : max 0 steps = steps := by omega
    constructor
    · unfold subtract_steps
      rw [hsplit]
      simp only [Option.map_some']
      rw [hmax]
    · apply split_id_fmtId
      obtain ⟨hb, hw⟩ := split_id_bound hsplit
      have hm : (max 0 ((n : Int) - steps)).toNat ≤ n := by omega
      exact length_numChars_le (by omega) hw
  · intro s hstrict
    simp only [strict_form, Bool.and_eq_true, Bool.not_eq_eq_eq_not, Bool.not_true,
      beq_eq_false_iff_ne, ne_eq] at hstrict
    obtain ⟨⟨hid, hhead⟩, hnl⟩ := hstrict
    obtain ⟨y, nn, t, heq, hlen, hydig, hne, hndig, ht⟩ := (idRe_iff s).mp hid
    have htnil : t = [] := by
      rcases ht with ht | ht
      · exact ht
      · exfalso
        subst ht
        rw [heq] at hnl
        simp at hnl
    subst htnil
    rw [List.append_nil] at heq
    match hy : y, hlen with
    | [a, b, c, d], _ =>
      subst hy
      have heqs : s = a :: b :: c :: d :: '-' :: nn := by rw [heq]; rfl
      have ha0 : a ≠ '0' := by
        intro hc
        subst hc
        rw [heqs] at hhead
        simp at hhead
      have hydig4 : ∀ x ∈ [a, b, c, d], isDig x = true := hydig
      have hsplit := split_id_strict hydig4 hne hndig
      rw [heqs]
      unfold subtract_steps
      rw [hsplit]
      simp only [Option.map_some', Option.some.injEq]
      have hzero : (max 0 ((parseVal nn : Int) - max 0 0)).toNat = parseVal nn := by
        omega
      rw [hzero]
      unfold fmtId
      have hyear : numChars (parseVal [a, b, c, d]) = [a, b, c, d] :=
        numChars_canonical a [b, c, d] hydig4 ha0
      have hnum : padLeft nn.length (numChars (parseVal nn)) = nn :=
        pad_roundtrip nn hne hndig
      rw [hyear, hnum]
      rfl

/-- C4 witness: concrete clamping, width preservation and identity at 0. -/
theorem subtract_steps_spec_witness :
    (subtract_steps "2024-0010".data 12 = some (fmtId 2024 (max 0 ((10 : Int) - 12)).toNat 4) ∧
      split_id (fmtId 2024 (max 0 ((10 : Int) - 12)).toNat 4)
        = some (2024, (max 0 ((10 : Int) - 12)).toNat, 4)) ∧
    subtract_steps "2024-0010".data 0 = some "2024-0010".data := by
  constructor
  · exact subtract_steps_spec.1 "2024-0010".data 2024 10 4 12 (by decide) (by norm_num)
  · exact subtract_steps_spec.2 "2024-0010".data (by decide)

/-- C5 counterexample: `"123-1"` consists of one or more digits, a dash and
one or more digits — the shape the claim asserts is accepted — yet
`validate_vuln_id` rejects it, because the compiled pattern requires exactly
four digits before the dash. -/
theorem validate_loose_counterexample :
    claimLooseShape "123-1".data ∧ validate_vuln_id "123-1" = false := by
  constructor
  · refine ⟨['1', '2', '3'], ['1'], by decide, by decide, ?_, by decide, ?_⟩
    · intro c hc
      simp only [List.mem_cons, List.not_mem_nil, or_false] at hc
      rcases hc with hc | hc | hc <;> subst hc <;> decide
    · intro c hc
      simp only [List.mem_cons, List.not_mem_nil, or_false] at hc
      subst hc; decide
  · decide

/-- C5 (amended): `validate` accepts exactly the strings made of exactly
four digits, a dash, and one or more digits, optionally followed by one
trailing newline (an artifact of Python `re.match` semantics, whose `$`
also matches just before a final `\n`); every string whose digit run
before the dash has a different length is rejected. -/
theorem validate_vuln_id_exact (s : String) : validate_vuln_id s = true ↔
    ∃ y n t : List Char, s.data = y ++ '-' :: (n ++ t) ∧ y.length = 4 ∧
      (∀ c ∈ y, isDig c = true) ∧ n ≠ [] ∧ (∀ c ∈ n, isDig c = true) ∧
      (t = [] ∨ t = ['\n']) :=
  idRe_iff s.data

theorem sim_self {l : List String} (h : l.toFinset ≠ ∅) : tokens_similarity l l = 1 := by
  unfold tokens_similarity
  rw [if_neg (by simp [h])]
  rw [Finset.inter_self, max_self]
  rw [div_self]
  simp only [ne_eq, Nat.cast_eq_zero, Finset.card_eq_zero]
  exact h

theorem sim_acrobat_half :
    tokens_similarity ["acrobat", "reader"] ["adobe", "acrobat", "reader", "dc"] = 1 / 2 := by
  have h1 : ((["acrobat", "reader"].toFinset : Finset String)
      ∩ ["adobe", "acrobat", "reader", "dc"].toFinset).card = 2 := by decide
  have h2 : (["acrobat", "reader"].toFinset : Finset String).card = 2 := by decide
  have h3 : (["adobe", "acrobat", "reader", "dc"].toFinset : Finset String).card = 4 := by
    decide
  unfold tokens_similarity
  rw [if_neg (by decide), h1, h2, h3]
  norm_num

/-- C6: from the disclosure product text `"before 7.3.1"` version extraction
yields the single constraint `< (7,3,1)`; installed `"7.2.0"` gets verdict
`match` and the pair is retained by the correlation loop (with that
verdict), while installed `"7.5.0"` gets verdict `mismatch` and the pair is
dropped (`pair_decision` returns `none`). -/
theorem before_731_scenario :
    extract_version_constraints "before 7.3.1" = [⟨"<", [7, 3, 1], none⟩] ∧
    version_is_vulnerable (some "7.2.0") "before 7.3.1" = "match" ∧
    version_is_vulnerable (some "7.5.0") "before 7.3.1" = "mismatch" ∧
    pair_decision ⟨some "Widget before 7.3.1", some "7.2.0", none⟩
      ⟨none, some "Widget before 7.3.1", none⟩ = some "match" ∧
    pair_decision ⟨some "Widget before 7.3.1", some "7.5.0", none⟩
      ⟨none, some "Widget before 7.3.1", none⟩ = none := by
  have hone : tokens_similarity ["widget", "before", "7", "3", "1"]
      ["widget", "before", "7", "3", "1"] = 1 := sim_self (by decide)
  have hno1 : ¬ (tokens_similarity ["widget", "before", "7", "3", "1"]
      ["widget", "before", "7", "3", "1"] < SIM_THRESHOLD_NAME) := by
    rw [hone]
    norm_num [SIM_THRESHOLD_NAME]
  refine ⟨by decide, by decide, by decide, ?_, ?_⟩
  · unfold pair_decision
    rw [if_neg (by decide), if_neg (by decide)]
    split
    · next h => exact absurd h hno1
    · split
      · next h2 => exact absurd rfl h2.1
      · decide
  · unfold pair_decision
    rw [if_neg (by decide), if_neg (by decide)]
    split
    · next h => exact absurd h hno1
    · split
      · next h2 => exact absurd rfl h2.1
      · decide

/-- C7: token-set similarity is symmetric and lies in `[0, 1]`; the pair
"Acrobat Reader" vs. "Adobe Acrobat Reader DC" has similarity exactly
`2/4 = 1/2`, which is not below the `0.5` threshold, so the pair is
retained by the correlation loop (here with verdict `unknown`, as no
version is recorded). -/
theorem tokens_similarity_spec :
    (∀ a b : List String, tokens_similarity a b = tokens_similarity b a) ∧
    (∀ a b : List String, 0 ≤ tokens_similarity a b ∧ tokens_similarity a b ≤ 1) ∧
    tokens_similarity ["acrobat", "reader"] ["adobe", "acrobat", "reader", "dc"] = 1 / 2 ∧
    pair_decision ⟨some "Acrobat Reader", none, none⟩
      ⟨none, some "Adobe Acrobat Reader DC", none⟩ = some "unknown" := by
  refine ⟨?_, ?_, sim_acrobat_half, ?_⟩
  · intro a b
    unfold tokens_similarity
    by_cases h : a.toFinset = ∅ ∨ b.toFinset = ∅
    · rw [if_pos h, if_pos (Or.symm h)]
    · rw [if_neg h, if_neg (fun hc => h (Or.symm hc))]
      rw [Finset.inter_comm, max_comm]
  · intro a b
    unfold tokens_similarity
    by_cases h : a.toFinset = ∅ ∨ b.toFinset = ∅
    · rw [if_pos h]
      norm_num
    · rw [if_neg h]
      push_neg at h
      have hposn : 0 < max a.toFinset.card b.toFinset.card :=
        lt_of_lt_of_le
          (Finset.card_pos.mpr (Finset.nonempty_iff_ne_empty.mpr h.1))
          (le_max_left _ _)
      have hpos : (0 : ℚ) < ((max a.toFinset.card b.toFinset.card : Nat) : ℚ) := by
        exact_mod_cast hposn
      constructor
      · positivity
      · rw [← Nat.cast_max, div_le_one hpos]
        have hle : (a.toFinset ∩ b.toFinset).card ≤ max a.toFinset.card b.toFinset.card :=
          le_trans (Finset.card_le_card Finset.inter_subset_left) (le_max_left _ _)
        exact_mod_cast hle
  · have hno1 : ¬ (tokens_similarity ["acrobat", "reader"]
        ["adobe", "acrobat", "reader", "dc"] < SIM_THRESHOLD_NAME) := by
      rw [sim_acrobat_half]
      norm_num [SIM_THRESHOLD_NAME]
    unfold pair_decision
    rw [if_neg (by decide), if_neg (by decide)]
    split
    · next h => exact absurd h hno1
    · split
      · next h2 => exact absurd rfl h2.1
      · decide

theorem decrypt_payload_short {o : IngestOracles} {ek ed : String} {bytes : List Nat}
    (hdec : o.b64 ed = some bytes) (hlen : bytes.length < 28) :
    decrypt_payload o ek ed = none := by
  unfold decrypt_payload
  cases hk : o.b64 ek with
  | none => rfl
  | some key =>
    dsimp only
    rw [hdec]
    dsimp only
    cases hr : o.rsa key with
    | none => rfl
    | some aes_key =>
      dsimp only
      rw [if_pos (by omega)]

/-- C1: an ingestion request (valid JSON body with non-empty `enc_key` and
`enc_data`, loadable private key) whose `enc_data` base64-decodes to fewer
than 28 bytes is answered `decrypt_failed`, whatever the remaining crypto
oracles do, and the database is returned unchanged — no `agents` row and
no `agent_software` row is created or modified.  (An empty `enc_data`
cannot reach this path: it is classified `enc_key_or_enc_data_missing`
by the field-presence check.) -/
theorem short_encdata_rejected (o : IngestOracles) (dbOk : Bool) (ts : String)
    (db : Db) (ek ed : String) (bytes : List Nat)
    (hek : ek ≠ "") (hed : ed ≠ "")
    (hdec : o.b64 ed = some bytes) (hlen : bytes.length < 28) :
    agent_report o true dbOk ts db (some (some ek, some ed)) = (.decrypt_failed, db) := by
  unfold agent_report
  dsimp only
  rw [if_neg (by simp [hek, hed])]
  rw [if_neg (by simp)]
  rw [decrypt_payload_short hdec hlen]

/-- C1 witness: a 10-byte `enc_data` is rejected as `decrypt_failed` with
the database untouched. -/
theorem short_encdata_rejected_witness :
    agent_report sampleOracles true true "t" ⟨[], []⟩
      (some (some "KEY", some "0123456789")) = (.decrypt_failed, ⟨[], []⟩) :=
  short_encdata_rejected sampleOracles true "t" ⟨[], []⟩ "KEY" "0123456789"
    ("0123456789".data.map Char.toNat) (by decide) (by decide) rfl (by decide)

theorem mem_clean_software_rows {aid : String} {l : List SwEntry} {ts : String}
    {r : SoftwareRow} (hr : r ∈ clean_software_rows aid l ts) :
    r.agent_id = aid ∧ r.name ≠ "" ∧ r.first_seen = ts ∧ r.last_seen = ts := by
  unfold clean_software_rows at hr
  obtain ⟨item, -, hf⟩ := List.mem_filterMap.mp hr
  dsimp only at hf
  by_cases hname : pyStrip (pyOrEmpty item.name) = ""
  · rw [if_pos hname] at hf
    exact absurd hf (by simp)
  · rw [if_neg hname] at hf
    rw [Option.some.injEq] at hf
    subst hf
    exact ⟨rfl, hname, rfl, rfl⟩

theorem filter_ne_then_eq (l : List SoftwareRow) (aid : String) :
    (l.filter fun r => ¬ (r.agent_id = aid)).filter (fun r => r.agent_id = aid) = [] := by
  rw [List.filter_eq_nil_iff]
  intro a ha
  have h2 := (List.mem_filter.mp ha).2
  simp only [decide_eq_true_eq] at h2 ⊢
  exact h2

/-- C2: after two sequential inventory upserts for the same `agent_id`, the
stored software rows of that agent are exactly the cleaned rows of the
second report — nothing from the first report survives and no union is
formed; every surviving row carries the agent's id, a non-blank name, and
the second report's timestamp. -/
theorem upsert_inventory_replaces (db : Db) (aid : String)
    (h1 ot1 orel1 ov1 arch1 ip1 h2 ot2 orel2 ov2 arch2 ip2 : Option JsonVal)
    (l1 l2 : List SwEntry) (ts1 ts2 : String) :
    ((upsert_agent_inventory
        (upsert_agent_inventory db aid h1 ot1 orel1 ov1 arch1 ip1 l1 ts1)
        aid h2 ot2 orel2 ov2 arch2 ip2 l2 ts2).software.filter
          fun r => r.agent_id = aid) = clean_software_rows aid l2 ts2 ∧
    ∀ r ∈ clean_software_rows aid l2 ts2,
      r.agent_id = aid ∧ r.name ≠ "" ∧ r.first_seen = ts2 ∧ r.last_seen = ts2 := by
  constructor
  · unfold upsert_agent_inventory
    dsimp only
    rw [List.filter_append, filter_ne_then_eq]
    rw [List.nil_append]
    rw [List.filter_eq_self]
    intro r hr
    have := (mem_clean_software_rows hr).1
    simp [this]
  · intro r hr
    exact mem_clean_software_rows hr

theorem upsert_agents_mem (ags : List AgentRow) (aid : String)
    (h ot orel ov arch ip : Option JsonVal) (ts : String) :
    (upsert_agents ags aid h ot orel ov arch ip ts).any
      (fun r => r.agent_id = aid) = true := by
  unfold upsert_agents
  by_cases hex : ags.any (fun r => r.agent_id = aid) = true
  · rw [if_pos hex]
    rw [List.any_eq_true] at hex ⊢
    obtain ⟨r, hr, hra⟩ := hex
    simp only [decide_eq_true_eq] at hra
    refine ⟨_, List.mem_map_of_mem _ hr, ?_⟩
    simp [hra]
  · rw [if_neg hex]
    rw [List.any_append]
    simp

/-- C10: with a successfully decrypted payload `p`, the request is answered
`agent_id_missing` with the database unchanged exactly when the `agent_id`
field is absent or Python-falsy (null, `""`, `0`, `false`, empty
containers); a truthy `agent_id` of any JSON type is accepted — when the
conversion guards and the transaction succeed the response is `ok` and the
upsert is keyed by `str(agent_id)`, so an `agents` row with id
`pyStr agent_id` exists afterwards. -/
theorem agent_id_gate (o : IngestOracles) (dbOk : Bool) (ts : String) (db : Db)
    (ek ed : String) (p : List (String × JsonVal))
    (hek : ek ≠ "") (hed : ed ≠ "") (hdec : decrypt_payload o ek ed = some p) :
    ((agent_report o true dbOk ts db (some (some ek, some ed)) = (.agent_id_missing, db)) ↔
      (pyGet p "agent_id" = none ∨ ∃ v, pyGet p "agent_id" = some v ∧ pyTruthy v = false)) ∧
    (∀ v osf entries, pyGet p "agent_id" = some v → pyTruthy v = true →
      osInfoOf p = .obj osf → toSwEntries (softwareOf p) = some entries → dbOk = true →
      agent_report o true dbOk ts db (some (some ek, some ed)) =
        (.ok, upsert_agent_inventory db (pyStr v)
          (pyGet osf "hostname") (pyGet osf "os_type") (pyGet osf "os_release")
          (pyGet osf "os_version") (pyGet osf "architecture") (ipOf p) entries ts) ∧
      (upsert_agent_inventory db (pyStr v)
          (pyGet osf "hostname") (pyGet osf "os_type") (pyGet osf "os_release")
          (pyGet osf "os_version") (pyGet osf "architecture") (ipOf p) entries ts).agents.any
        (fun r => r.agent_id = pyStr v) = true) := by
  have hred : agent_report o true dbOk ts db (some (some ek, some ed)) =
      (match pyGet p "agent_id" with
       | none => (.agent_id_missing, db)
       | some aid =>
         if pyTruthy aid = false then (.agent_id_missing, db)
         else
           match osInfoOf p with
           | .obj osf =>
             match toSwEntries (softwareOf p) with
             | none => (.db_error, db)
             | some entries =>
               if dbOk then
                 (.ok, upsert_agent_inventory db (pyStr aid)
                   (pyGet osf "hostname") (pyGet osf "os_type")
                   (pyGet osf "os_release") (pyGet osf "os_version")
                   (pyGet osf "architecture") (ipOf p) entries ts)
               else (.db_error, db)
           | _ => (.db_error, db)) := by
    unfold agent_report
    dsimp only
    rw [if_neg (by simp [hek, hed]), if_neg (by simp), hdec]
  constructor
  · rw [hred]
    cases haid : pyGet p "agent_id" with
    | none =>
      dsimp only
      constructor
      · intro _; exact Or.inl rfl
      · intro _; rfl
    | some v =>
      dsimp only
      by_cases ht : pyTruthy v = false
      · rw [if_pos ht]
        constructor
        · intro _; exact Or.inr ⟨v, rfl, ht⟩
        · intro _; rfl
      · rw [if_neg ht]
        constructor
        · intro hres
          exfalso
          split at hres
          · split at hres
            · exact absurd hres (by simp)
            · split at hres
              · exact absurd hres (by simp)
              · exact absurd hres (by simp)
          all_goals exact absurd hres (by simp)
        · rintro (hc | ⟨w, hw, hwt⟩)
          · exact Option.noConfusion hc
          · rw [Option.some.injEq] at hw
            subst hw
            exact absurd hwt ht
  · intro v osf entries hv htr hos hsw hdb
    subst hdb
    rw [hred, hv]
    dsimp only
    rw [if_neg (by simp [htr])]
    rw [hos]
    dsimp only
    rw [hsw]
    dsimp only
    rw [if_pos rfl]
    exact ⟨rfl, upsert_agents_mem _ _ _ _ _ _ _ _ _⟩

/-- C10 witness: a numeric `agent_id` (`7`) in the decrypted payload is
accepted and stored under the string `"7"`. -/
theorem agent_id_gate_witness :
    agent_report sampleOracles true true "t" ⟨[], []⟩
      (some (some "KEY", some "0123456789012345678901234567")) =
      (.ok, upsert_agent_inventory ⟨[], []⟩ (pyStr (.num 7))
        none none none none none none [] "t") ∧
    (upsert_agent_inventory (⟨[], []⟩ : Db) (pyStr (.num 7))
        none none none none none none [] "t").agents.any
      (fun r => r.agent_id = pyStr (.num 7)) = true := by
  have h := (agent_id_gate sampleOracles true "t" ⟨[], []⟩ "KEY"
    "0123456789012345678901234567" [("agent_id", .num 7)]
    (by decide) (by decide) rfl).2 (.num 7) [] [] rfl rfl rfl rfl rfl
  exact h

theorem dedup_keep_first_subset {α : Type} (key : SrcRow α → Option String) :
    ∀ l : List (SrcRow α), ∀ r ∈ dedup_keep_first key l, r ∈ l := by
  intro l
  induction l using dedup_keep_first.induct key with
  | case1 => intro r hr; rw [dedup_keep_first] at hr; exact absurd hr (by simp)
  | case2 r rest ih =>
    intro x hx
    rw [dedup_keep_first] at hx
    rcases List.mem_cons.mp hx with hx | hx
    · exact hx ▸ List.mem_cons_self _ _
    · exact List.mem_cons_of_mem _ ((List.mem_filter.mp (ih x hx)).1)

theorem nodup_keys_dedup_keep_first {α : Type} (key : SrcRow α → Option String) :
    ∀ l : List (SrcRow α), ((dedup_keep_first key l).map key).Nodup := by
  intro l
  induction l using dedup_keep_first.induct key with
  | case1 => rw [dedup_keep_first]; simp
  | case2 r rest ih =>
    rw [dedup_keep_first]
    rw [List.map_cons, List.nodup_cons]
    refine ⟨?_, ih⟩
    intro hmem
    obtain ⟨x, hx, hkx⟩ := List.mem_map.mp hmem
    have hxf := dedup_keep_first_subset key _ x hx
    have := (List.mem_filter.mp hxf).2
    simp only [decide_eq_true_eq] at this
    exact this hkx

theorem dedup_keep_first_eq_self {α : Type} (key : SrcRow α → Option String) :
    ∀ l : List (SrcRow α), (l.map key).Nodup → dedup_keep_first key l = l := by
  intro l
  induction l using dedup_keep_first.induct key with
  | case1 => intro _; rw [dedup_keep_first]
  | case2 r rest ih =>
    intro hnd
    rw [List.map_cons, List.nodup_cons] at hnd
    obtain ⟨hnot, hnd2⟩ := hnd
    have hfilt : rest.filter (fun x => key x ≠ key r) = rest := by
      rw [List.filter_eq_self]
      intro x hx
      simp only [decide_eq_true_eq]
      intro hkeq
      exact hnot (List.mem_map.mpr ⟨x, hx, hkeq⟩)
    rw [dedup_keep_first, hfilt]
    rw [hfilt] at ih
    rw [ih hnd2]

theorem nodup_keys_dedup_keep_last {α : Type} (key : SrcRow α → Option String)
    (l : List (SrcRow α)) : ((dedup_keep_last key l).map key).Nodup := by
  unfold dedup_keep_last
  rw [List.map_reverse, List.nodup_reverse]
  exact nodup_keys_dedup_keep_first key l.reverse

theorem dedup_keep_last_eq_self {α : Type} (key : SrcRow α → Option String)
    (l : List (SrcRow α)) (h : (l.map key).Nodup) : dedup_keep_last key l = l := by
  unfold dedup_keep_last
  rw [dedup_keep_first_eq_self key l.reverse
    (by rw [List.map_reverse, List.nodup_reverse]; exact h)]
  exact List.reverse_reverse l

theorem length_sort_and_renumber {α : Type} (le : SrcRow α → SrcRow α → Bool)
    (l : List (SrcRow α)) : (sort_and_renumber le l).length = l.length := by
  unfold sort_and_renumber
  rw [List.length_map, List.enum_length]
  exact (l.mergeSort_perm le).length_eq

theorem keys_sort_and_renumber {α : Type} (norm : String → String)
    (le : SrcRow α → SrcRow α → Bool) (l : List (SrcRow α)) :
    ((sort_and_renumber le l).map (norm_key norm)).Perm (l.map (norm_key norm)) := by
  unfold sort_and_renumber
  have hmm : ((l.mergeSort le).enum.map fun p => { p.2 with num := p.1 + 1 }).map
      (norm_key norm) = (l.mergeSort le).map (norm_key norm) := by
    rw [List.map_map]
    have : (norm_key norm ∘ fun p : Nat × SrcRow α => { p.2 with num := p.1 + 1 })
        = norm_key norm ∘ Prod.snd := rfl
    rw [this, ← List.map_map, List.enum_map_snd]
  rw [hmm]
  exact (l.mergeSort_perm le).map (norm_key norm)

theorem nodup_keys_build_final {α : Type} (norm : String → String)
    (le : SrcRow α → SrcRow α → Bool) (shards : List (List (SrcRow α))) :
    ((build_final norm le shards).map (norm_key norm)).Nodup := by
  unfold build_final
  by_cases h : shards.flatten.isEmpty
  · rw [if_pos h]; simp
  · rw [if_neg h]
    exact ((keys_sort_and_renumber norm le _).nodup_iff).mpr
      (nodup_keys_dedup_keep_last (norm_key norm) shards.flatten)

/-- C8: aggregation deduplication is idempotent — running the pipeline
(combine, unify, dedup-keep-last on the normalized link, order, renumber)
a second time over the record set produced by a first run yields the same
record count, for every shard set, every link normalizer and every sort
comparison. -/
theorem build_final_idempotent {α : Type} (norm : String → String)
    (le : SrcRow α → SrcRow α → Bool) (shards : List (List (SrcRow α))) :
    (build_final norm le [build_final norm le shards]).length
      = (build_final norm le shards).length := by
  have hnd := nodup_keys_build_final norm le shards
  set out := build_final norm le shards with hout
  unfold build_final
  have hjoin : ([out] : List (List (SrcRow α))).flatten = out := by simp
  rw [hjoin]
  by_cases h : out.isEmpty
  · rw [if_pos h]
    rw [List.isEmpty_iff] at h
    rw [h]
  · rw [if_neg h]
    rw [length_sort_and_renumber, dedup_keep_last_eq_self (norm_key norm) out hnd]

/-- C9: in one poll iteration — (i) if the probe raised or reported a
non-positive count, nothing is harvested and the checkpoint is unchanged;
(ii) if the reported pointer equals the persisted checkpoint, the
iteration is a no-op; (iii) otherwise (pointer changed, latest id obtained
and well-formed) the watcher harvests exactly the range
`[subtract_steps(latest, count - 1), latest]` and persists the new
pointer. -/
theorem poll_once_spec :
    (∀ inp : PollInput, (inp.probe = none ∨
        ∃ news, inp.probe = some news ∧ news.count.getD 0 ≤ 0) →
      poll_once inp = ⟨none, none⟩) ∧
    (∀ (inp : PollInput) (news : ProbeNews) (u : String),
      inp.probe = some news → news.news_url = some u → u ≠ "" →
      0 < news.count.getD 0 → inp.lastSeen = some u →
      poll_once inp = ⟨none, none⟩) ∧
    (∀ (inp : PollInput) (news : ProbeNews) (u latest : String) (first : List Char),
      inp.probe = some news → news.news_url = some u → u ≠ "" →
      0 < news.count.getD 0 → inp.lastSeen ≠ some u → inp.latest = some latest →
      subtract_steps latest.data (news.count.getD 0 - 1) = some first →
      poll_once inp = ⟨some (first, latest.data), some u⟩) := by
  refine ⟨?_, ?_, ?_⟩
  · rintro inp (hp | ⟨news, hp, hc⟩)
    · unfold poll_once
      rw [hp]
    · unfold poll_once
      rw [hp]
      dsimp only
      cases hu : news.news_url with
      | none => rfl
      | some url =>
        dsimp only
        rw [if_pos (Or.inr hc)]
  · intro inp news u hp hu hne hc hlast
    unfold poll_once
    rw [hp]
    dsimp only
    rw [hu]
    dsimp only
    rw [if_neg (by simp [hne]; omega)]
    rw [if_neg (by simp [hlast])]
  · intro inp news u latest first hp hu hne hc hlast hlatest hsub
    unfold poll_once
    rw [hp]
    dsimp only
    rw [hu]
    dsimp only
    rw [if_neg (by simp [hne]; omega)]
    rw [if_pos hlast]
    rw [hlatest]
    dsimp only
    rw [hsub]

/-- C9 witness: a concrete skipped probe, a concrete unchanged pointer,
and a concrete harvest of `[2024-0008, 2024-0010]` for count 3. -/
theorem poll_once_spec_witness :
    poll_once ⟨some ⟨some "news2", some 0⟩, some "news1", some "2024-0010"⟩
      = ⟨none, none⟩ ∧
    poll_once ⟨some ⟨some "news1", some 3⟩, some "news1", some "2024-0010"⟩
      = ⟨none, none⟩ ∧
    poll_once ⟨some ⟨some "news2", some 3⟩, some "news1", some "2024-0010"⟩
      = ⟨some ("2024-0008".data, "2024-0010".data), some "news2"⟩ := by
  refine ⟨?_, ?_, ?_⟩
  · exact poll_once_spec.1 _ (Or.inr ⟨⟨some "news2", some 0⟩, rfl, by norm_num⟩)
  · exact poll_once_spec.2.1 _ ⟨some "news1", some 3⟩ "news1" rfl rfl (by decide)
      (by norm_num) rfl
  · exact poll_once_spec.2.2 _ ⟨some "news2", some 3⟩ "news2" "2024-0010"
      "2024-0008".data rfl rfl (by decide) (by norm_num) (by simp) rfl (by decide)

end MiniVM
